import Mathlib

/-!
# Verification of the MapReduce word-count pipeline

Shallow embedding of the repository's Python sources:

* `wordcount_mr.py` — the Map/Reduce/Combine pipeline (`single_threaded_wordcount`,
  `map_task`, `reduce_task`, `combiner_task`, `multi_threaded_wordcount`),
* `wordcount_mt.py` — the thread-subclass variant (`single_thread_count`,
  `multithreaded_count`, `CombinerThread.run`),
* `app.py` — the HTTP adapter (`wordcount_api`).

Modelling conventions, fixed for the whole file:

* Characters are Unicode code points (`Nat`); a line and a word are `List Nat`.
  Python's `str.lower` is modelled per code point on the ASCII range
  (`A`–`Z` ↦ `a`–`z`), which is exact for ASCII text; the spec declares
  non-Latin tokenization out of scope.
* A Python dict of word counts is modelled as a total function `Word → Nat`
  with `0` meaning "key absent".  Every dict built by the sources stores only
  strictly positive values (`counts[w] += 1` on a `defaultdict(int)`, guarded
  `+=` in `reduce_task`, `get(w, 0) + cnt` with `cnt ≥ 1` in `combiner_task`),
  so two such dicts are equal in Python exactly when the modelling functions
  are equal.
* Thread bodies in the sources are deterministic and write to dedicated slots
  (`intermediate[i]`, `reduced[i]`), so the spawn/join structure is embedded
  as the sequential composition of the task functions; elapsed-time values
  are not modelled.
* `re.findall` over pattern `[A-Za-z]+` (resp. `\w+`) is `findall` below with
  the corresponding character class: the list of maximal runs of matching
  code points.
-/

/-- A word: list of Unicode code points (Python `str`). -/
abbrev Word := List Nat

/-- An input line: list of Unicode code points. -/
abbrev Line := List Nat

/-- A word-count dict, as a total function with `0` = absent. -/
abbrev CountMap := Word → Nat

/-- Code points of a Lean string literal; used only to spell concrete inputs. -/
def codes (s : List Char) : List Nat := s.map Char.toNat

/-- Python `str.lower` on one code point, ASCII range (`A`-`Z` ↦ `a`-`z`). -/
def asciiLower (n : Nat) : Nat := if 65 ≤ n ∧ n ≤ 90 then n + 32 else n

/-- Character class `[A-Za-z]` of the regex in `wordcount_mr.py` (lines 33, 42). -/
def isAlphaChar (n : Nat) : Bool := (65 ≤ n && n ≤ 90) || (97 ≤ n && n ≤ 122)

/-- Character class `\w` (ASCII part) of the regex in `wordcount_mt.py` (line 174). -/
def isWordChar (n : Nat) : Bool :=
  isAlphaChar n || (48 ≤ n && n ≤ 57) || n == 95

/-- Does the next character continue a run of class `p`? -/
def headMatches (p : Nat → Bool) : List Nat → Bool
  | [] => false
  | d :: _ => p d

/-- Extend the run list by a matching character `c`: merged into the head run
when the following character also matched, otherwise opening a new run. -/
def consRun (c : Nat) (merge : Bool) (rest : List (List Nat)) : List (List Nat) :=
  match merge, rest with
  | true, r :: rs => (c :: r) :: rs
  | _, _ => [c] :: rest

/-- `re.findall` for a pattern `cls+`: the maximal runs of code points of class
`p`, in order.  A new run is started unless the following character also
matches, in which case the current character is merged into the head run. -/
def findall (p : Nat → Bool) : List Nat → List (List Nat)
  | [] => []
  | c :: cs =>
    if p c then consRun c (headMatches p cs) (findall p cs)
    else findall p cs

/-- Tokenizer of `wordcount_mr.py`: `re.findall(r"[A-Za-z]+", line.lower())`. -/
def tokenize (line : Line) : List Word :=
  findall isAlphaChar (line.map asciiLower)

/-- All tokens of a line sequence, in order (the tokens consumed by the
counting loops of `single_threaded_wordcount` and `map_task`). -/
def tokensOfLines (lines : List Line) : List Word :=
  (lines.map tokenize).flatten

/-- The empty dict (`defaultdict(int)` before any write). -/
def emptyCounts : CountMap := fun _ => 0

/-- `counts[word] += 1` on the dict model. -/
def bump (c : CountMap) (w : Word) : CountMap :=
  fun x => if x = w then c x + 1 else c x

/-- The counting loop shared verbatim by `single_threaded_wordcount`
(lines 31-34) and `map_task` (lines 40-43) of `wordcount_mr.py`:
`for line in lines: for word in findall(...): counts[word] += 1`. -/
def countWords (lines : List Line) : CountMap :=
  lines.foldl (fun c line => (tokenize line).foldl bump c) emptyCounts

/-- `single_threaded_wordcount` of `wordcount_mr.py` (count mapping only;
the elapsed duration is not modelled). -/
def single_threaded_wordcount (lines : List Line) : CountMap := countWords lines

/-- `map_task` of `wordcount_mr.py`: the partial count map it publishes to
`intermediate[index]`. -/
def map_task (part : List Line) : CountMap := countWords part

/-- `counts[k] += v` on the dict model. -/
def addAt (c : CountMap) (k : Word) (v : Nat) : CountMap :=
  fun x => if x = k then c x + v else c x

/-- `reduce_task` of `wordcount_mr.py` (lines 46-53): for each partial map in
`intermediate`, for each assigned key present in it, accumulate its count.
`part k = 0` models `key not in part_counts` (map outputs store no zeros). -/
def reduce_task (keys : List Word) (intermediate : List CountMap) : CountMap :=
  intermediate.foldl
    (fun counts part =>
      keys.foldl (fun c k => if part k = 0 then c else addAt c k (part k)) counts)
    emptyCounts

/-- `combiner_task` of `wordcount_mr.py` (lines 55-59): merge the reduced
dicts by `final[w] = final.get(w, 0) + cnt`, i.e. pointwise addition. -/
def combiner_task (reduced : List CountMap) : CountMap :=
  reduced.foldl (fun final part => fun w => final w + part w) emptyCounts

/-- Python `<` on strings: lexicographic comparison of code points. -/
def strLt : List Nat → List Nat → Bool
  | [], [] => false
  | [], _ :: _ => true
  | _ :: _, [] => false
  | a :: as, b :: bs =>
    if a < b then true else if b < a then false else strLt as bs

/-- Python `sorted` on a collection of words (ascending code-point order). -/
def sortWords (ws : List Word) : List Word :=
  List.insertionSort (fun a b => (strLt a b || a == b) = true) ws

/-- The chunk comprehension of `wordcount_mr.py`, used on data lines
(lines 66-71) and again on the sorted key list (lines 90-94):
`size = len(xs) // n; [xs[i*size : (i+1)*size if i < n-1 else len(xs)]
for i in range(n)]`, for a nonnegative thread count `n`. -/
def partitionSlices {α : Type} (xs : List α) (n : Nat) : List (List α) :=
  let size := xs.length / n
  (List.range n).map (fun i =>
    if i < n - 1 then (xs.drop (i * size)).take size else xs.drop (i * size))

/-- Shuffle of `wordcount_mr.py` (lines 83-87): union of the key sets of the
partial maps, sorted.  A partial map's key list (`d.keys()`) is the list of
distinct tokens of its partition. -/
def uniqueSortedKeys (parts : List (List Line)) : List Word :=
  sortWords ((parts.map (fun p => (tokensOfLines p).dedup)).flatten.dedup)

/-- `multi_threaded_wordcount` of `wordcount_mr.py` specialised to a
nonnegative thread count: partition, map, shuffle, key-partition, reduce,
combine. -/
def multiNat (lines : List Line) (n : Nat) : CountMap :=
  let partitions := partitionSlices lines n
  let intermediate := partitions.map map_task
  let sorted_keys := uniqueSortedKeys partitions
  let reduced := (partitionSlices sorted_keys n).map (fun ks => reduce_task ks intermediate)
  combiner_task reduced

/-- Python list indexing bound: negative indices count from the end, then the
index is clamped to `[0, len]`. -/
def pyIndex (len : Nat) (i : Int) : Nat :=
  min (if i < 0 then i + len else i).toNat len

/-- Python slice `xs[a:b]` with full index normalisation. -/
def pySlice {α : Type} (xs : List α) (a b : Int) : List α :=
  (xs.take (pyIndex xs.length b)).drop (pyIndex xs.length a)

/-- The chunk comprehension of `wordcount_mr.py` with the thread count as the
Python `int` it is: `size = len(xs) // n` is floor division and
`range(n)` is empty for `n ≤ 0`. -/
def pyChunksInt {α : Type} (xs : List α) (t : Int) : List (List α) :=
  let total : Int := xs.length
  let size : Int := Int.fdiv total t
  (List.range t.toNat).map (fun (i : Nat) =>
    pySlice xs ((i : Int) * size) (if (i : Int) < t - 1 then ((i : Int) + 1) * size else total))

/-- `multi_threaded_wordcount` of `wordcount_mr.py` (lines 61-113) for an
arbitrary `int` thread count.  `num_threads = 0` raises `ZeroDivisionError`
at `size = total // num_threads` (line 67), before any thread is started;
otherwise the pipeline runs with the comprehensions over `range(num_threads)`. -/
def multi_threaded_wordcount (lines : List Line) (t : Int) : Except String CountMap :=
  if t = 0 then Except.error "ZeroDivisionError"
  else
    let partitions := pyChunksInt lines t
    let intermediate := partitions.map map_task
    let sorted_keys := uniqueSortedKeys partitions
    let reduced := (pyChunksInt sorted_keys t).map (fun ks => reduce_task ks intermediate)
    Except.ok (combiner_task reduced)

/-- `wordcount_api` of `app.py` (lines 11-29): reject `threads < 1` with a 400
"Invalid thread count" before calling the pipeline, otherwise run the
sequential and concurrent counts on the uploaded content. -/
def wordcount_api (content : List Line) (threads : Int) :
    Except String (CountMap × CountMap) :=
  if threads < 1 then Except.error "Invalid thread count"
  else
    match multi_threaded_wordcount content threads with
    | Except.ok m => Except.ok (single_threaded_wordcount content, m)
    | Except.error e => Except.error e

/-- Python `sep.join(lines)`. -/
def joinWith (sep : List Nat) : List (List Nat) → List Nat
  | [] => []
  | [l] => l
  | l :: ls => l ++ sep ++ joinWith sep ls

/-- Tokenizer of `wordcount_mt.py`: `re.findall(r"\w+", text.lower())` where
`text` is the newline-join of the lines (code point 10 = `\n`). -/
def mtTokens (lines : List Line) : List Word :=
  findall isWordChar ((joinWith [10] lines).map asciiLower)

/-- `single_thread_count` of `wordcount_mt.py` (lines 216-219): `Counter` of
the tokens, as a count mapping. -/
def single_thread_count (lines : List Line) : CountMap :=
  fun w => (mtTokens lines).count w

/-- The Map-phase chunking of `multithreaded_count` in `wordcount_mt.py`
(lines 225-231): ceiling chunk size, plain slices `lines[i*cs:(i+1)*cs]`. -/
def mtChunks (lines : List Line) (n : Nat) : List (List Line) :=
  let chunk_size := (lines.length + n - 1) / n
  (List.range n).map (fun i => (lines.drop (i * chunk_size)).take chunk_size)

/-- `multithreaded_count` of `wordcount_mt.py` (lines 223-261), as the final
count mapping: per-chunk `Counter`s, key-set union, per-key reduction
`sum(d.get(key, 0) for d in partials)`.  The Combine stage only reorders the
`(word, count)` pairs, so the mapping of `dict(combined_list)` is the reduced
mapping itself. -/
def multithreaded_count (lines : List Line) (n : Nat) : CountMap :=
  let chunks := mtChunks lines n
  let localCounters := chunks.map (fun ch => fun w => (mtTokens ch).count w)
  let keys := (chunks.map (fun ch => (mtTokens ch).dedup)).flatten.dedup
  fun w => if w ∈ keys then (localCounters.map (fun m => m w)).sum else 0

/-- `CombinerThread.run` of `wordcount_mt.py` (lines 204-212):
`sorted(reduced.items(), key=lambda kv: kv[1], reverse=True)` — Python's
stable sort by count descending, taking the items of the reduced dict in
their (reduce-thread completion) order.  Insertion sort with the non-strict
relation `b.2 ≤ a.2` places each earlier item before the later items of equal
count, which is exactly the stable descending order. -/
def combinerRun (pairs : List (Word × Nat)) : List (Word × Nat) :=
  List.insertionSort (fun a b => b.2 ≤ a.2) pairs

/-! ## Counting-loop lemmas -/

theorem bump_foldl (ts : List Word) (c : CountMap) (w : Word) :
    (ts.foldl bump c) w = c w + ts.count w := by
  induction ts generalizing c with
  | nil => simp
  | cons t ts ih =>
    rw [List.foldl_cons, ih]
    rcases eq_or_ne w t with h | h
    · subst h; simp [bump, List.count_cons_self]; omega
    · simp [bump, h, List.count_cons_of_ne h]

theorem countWords_go (lines : List Line) (c : CountMap) (w : Word) :
    (lines.foldl (fun c line => (tokenize line).foldl bump c) c) w
      = c w + (tokensOfLines lines).count w := by
  induction lines generalizing c with
  | nil => simp [tokensOfLines]
  | cons l ls ih =>
    rw [List.foldl_cons, ih, bump_foldl]
    simp [tokensOfLines, List.count_append]
    omega

theorem countWords_eq (lines : List Line) (w : Word) :
    countWords lines w = (tokensOfLines lines).count w := by
  simpa [emptyCounts] using countWords_go lines emptyCounts w

theorem reduce_inner (keys : List Word) (part : CountMap) (c : CountMap) (w : Word) :
    (keys.foldl (fun c k => if part k = 0 then c else addAt c k (part k)) c) w
      = c w + keys.count w * part w := by
  induction keys generalizing c with
  | nil => simp
  | cons k ks ih =>
    rw [List.foldl_cons, ih]
    rcases eq_or_ne w k with h | h
    · subst h
      by_cases hz : part w = 0
      · simp [hz, List.count_cons_self]
      · simp [hz, addAt, List.count_cons_self]; ring
    · by_cases hz : part k = 0
      · simp [hz, List.count_cons_of_ne h]
      · simp [hz, addAt, h, List.count_cons_of_ne h]

theorem reduce_task_eq (keys : List Word) (inter : List CountMap) (w : Word) :
    reduce_task keys inter w = keys.count w * (inter.map (fun m => m w)).sum := by
  suffices H : ∀ z : CountMap,
      (inter.foldl
        (fun counts part =>
          keys.foldl (fun c k => if part k = 0 then c else addAt c k (part k)) counts) z) w
        = z w + keys.count w * (inter.map (fun m => m w)).sum by
    simpa [reduce_task, emptyCounts] using H emptyCounts
  induction inter with
  | nil => intro z; simp
  | cons m ms ih =>
    intro z
    rw [List.foldl_cons, ih, reduce_inner]
    simp [Nat.mul_add]
    ring

theorem combiner_task_eq (reduced : List CountMap) (w : Word) :
    combiner_task reduced w = (reduced.map (fun m => m w)).sum := by
  suffices H : ∀ z : CountMap,
      (reduced.foldl (fun final part => fun x => final x + part x) z) w
        = z w + (reduced.map (fun m => m w)).sum by
    simpa [combiner_task, emptyCounts] using H emptyCounts
  induction reduced with
  | nil => intro z; simp
  | cons m ms ih =>
    intro z
    rw [List.foldl_cons, ih]
    simp
    ring

/-! ## Token lemmas -/

theorem tokensOfLines_append (xs ys : List Line) :
    tokensOfLines (xs ++ ys) = tokensOfLines xs ++ tokensOfLines ys := by
  simp [tokensOfLines]

theorem tokensOfLines_flatten (parts : List (List Line)) :
    tokensOfLines parts.flatten = (parts.map tokensOfLines).flatten := by
  induction parts with
  | nil => simp [tokensOfLines]
  | cons p ps ih => simp [tokensOfLines_append, ih]

theorem sum_count_parts (parts : List (List Line)) (w : Word) :
    ((parts.map (fun p => (tokensOfLines p).count w))).sum
      = (tokensOfLines parts.flatten).count w := by
  induction parts with
  | nil => simp [tokensOfLines]
  | cons p ps ih => simp [tokensOfLines_append, List.count_append, ih]

/-! ## Partition lemmas -/

theorem flatten_rangeTake {α : Type} (k s : Nat) (xs : List α) :
    ((List.range k).map (fun i => (xs.drop (i * s)).take s)).flatten = xs.take (k * s) := by
  induction k generalizing xs with
  | zero => simp
  | succ k ih =>
    rw [List.range_succ_eq_map]
    simp only [List.map_cons, List.map_map, List.flatten_cons, Nat.zero_mul, List.drop_zero]
    have hcomp : ((fun i => (xs.drop (i * s)).take s) ∘ Nat.succ)
        = (fun i => ((xs.drop s).drop (i * s)).take s) := by
      funext i
      simp only [Function.comp_apply, List.drop_drop]
      congr 2
      rw [Nat.succ_mul]
      omega
    rw [hcomp, ih]
    rw [Nat.succ_mul, Nat.add_comm (k * s) s, List.take_add]

theorem partitionSlices_length {α : Type} (xs : List α) (n : Nat) :
    (partitionSlices xs n).length = n := by
  simp [partitionSlices]

theorem partitionSlices_flatten {α : Type} (xs : List α) (n : Nat) (h : 1 ≤ n) :
    (partitionSlices xs n).flatten = xs := by
  obtain ⟨m, rfl⟩ : ∃ m, n = m + 1 := ⟨n - 1, by omega⟩
  simp only [partitionSlices]
  rw [List.range_succ, List.map_append, List.flatten_append]
  have hmap : (List.range m).map
        (fun i => if i < m + 1 - 1 then (xs.drop (i * (xs.length / (m + 1)))).take (xs.length / (m + 1))
                  else xs.drop (i * (xs.length / (m + 1))))
      = (List.range m).map (fun i => (xs.drop (i * (xs.length / (m + 1)))).take (xs.length / (m + 1))) := by
    apply List.map_congr_left
    intro i hi
    rw [List.mem_range] at hi
    rw [if_pos (by omega)]
  rw [hmap, flatten_rangeTake]
  simp only [List.map_cons, List.map_nil, List.flatten_cons, List.flatten_nil, List.append_nil]
  rw [if_neg (by omega)]
  exact List.take_append_drop _ _

theorem partitionSlices_getD {α : Type} (xs : List α) (n i : Nat) (hi : i < n) :
    (partitionSlices xs n).getD i []
      = (if i < n - 1 then (xs.drop (i * (xs.length / n))).take (xs.length / n)
         else xs.drop (i * (xs.length / n))) := by
  simp only [partitionSlices]
  rw [List.getD_eq_getElem?_getD, List.getElem?_map, List.getElem?_range hi]
  rfl

theorem partitionSlices_getD_length {α : Type} (xs : List α) (n i : Nat) (hi : i < n - 1) :
    ((partitionSlices xs n).getD i []).length = xs.length / n := by
  rw [partitionSlices_getD xs n i (by omega), if_pos hi]
  rw [List.length_take, List.length_drop]
  have h1 : xs.length / n * n ≤ xs.length := Nat.div_mul_le_self _ _
  have h2 : (i + 1) * (xs.length / n) ≤ n * (xs.length / n) := Nat.mul_le_mul_right _ (by omega)
  rw [Nat.succ_mul] at h2
  have h3 : n * (xs.length / n) ≤ xs.length := by
    rw [Nat.mul_comm]; exact h1
  omega

theorem partitionSlices_getD_last {α : Type} (xs : List α) (n : Nat) (h : 1 ≤ n) :
    ((partitionSlices xs n).getD (n - 1) []).length
      = xs.length / n + xs.length % n := by
  rw [partitionSlices_getD xs n (n - 1) (by omega), if_neg (by omega)]
  rw [List.length_drop]
  have hdm : n * (xs.length / n) + xs.length % n = xs.length := Nat.div_add_mod _ _
  have h2 : (n - 1) * (xs.length / n) + 1 * (xs.length / n) = n * (xs.length / n) := by
    rw [← Nat.add_mul]
    congr 1
    omega
  omega

/-! ## findall lemmas -/

theorem consRun_ne_nil (c : Nat) (b : Bool) (rest : List (List Nat)) :
    consRun c b rest ≠ [] := by
  cases b <;> cases rest <;> simp [consRun]

theorem mem_consRun {c : Nat} {b : Bool} {rest : List (List Nat)} {t : List Nat}
    (ht : t ∈ consRun c b rest) :
    t = [c] ∨ t ∈ rest ∨ ∃ r rs, rest = r :: rs ∧ t = c :: r := by
  cases b with
  | false =>
    simp only [consRun] at ht
    rcases List.mem_cons.mp ht with h | h
    · exact Or.inl h
    · exact Or.inr (Or.inl h)
  | true =>
    cases rest with
    | nil =>
      simp only [consRun] at ht
      simp at ht
      exact Or.inl ht
    | cons r rs =>
      simp only [consRun] at ht
      rcases List.mem_cons.mp ht with h | h
      · exact Or.inr (Or.inr ⟨r, rs, rfl, h⟩)
      · exact Or.inr (Or.inl (List.mem_cons_of_mem _ h))

theorem findall_mem_spec (p : Nat → Bool) (cs : List Nat) :
    ∀ t ∈ findall p cs, t ≠ [] ∧ (∀ c ∈ t, p c = true) ∧ (∀ c ∈ t, c ∈ cs) := by
  induction cs with
  | nil => intro t ht; simp [findall] at ht
  | cons c cs ih =>
    intro t ht
    by_cases hp : p c
    · rw [findall, if_pos hp] at ht
      rcases mem_consRun ht with h | h | ⟨r, rs, hrest, rfl⟩
      · subst h
        refine ⟨by simp, ?_, by simp⟩
        intro x hx; simp at hx; subst hx; exact hp
      · have hr := ih t h
        exact ⟨hr.1, hr.2.1, fun x hx => List.mem_cons_of_mem _ (hr.2.2 x hx)⟩
      · have hr := ih r (by rw [hrest]; exact List.mem_cons_self _ _)
        refine ⟨by simp, ?_, ?_⟩
        · intro x hx
          rcases List.mem_cons.mp hx with h2 | h2
          · subst h2; exact hp
          · exact hr.2.1 x h2
        · intro x hx
          rcases List.mem_cons.mp hx with h2 | h2
          · subst h2; exact List.mem_cons_self _ _
          · exact List.mem_cons_of_mem _ (hr.2.2 x h2)
    · rw [findall, if_neg hp] at ht
      have hr := ih t ht
      exact ⟨hr.1, hr.2.1, fun x hx => List.mem_cons_of_mem _ (hr.2.2 x hx)⟩

theorem findall_of_all (p : Nat → Bool) (l : List Nat) (hne : l ≠ [])
    (hall : ∀ c ∈ l, p c = true) : findall p l = [l] := by
  induction l with
  | nil => exact absurd rfl hne
  | cons c cs ih =>
    have hp : p c = true := hall c (List.mem_cons_self _ _)
    cases cs with
    | nil => simp [findall, headMatches, consRun, hp]
    | cons d ds =>
      have hd : p d = true := hall d (by simp)
      have ihr : findall p (d :: ds) = [d :: ds] :=
        ih (by simp) (fun x hx => hall x (List.mem_cons_of_mem _ hx))
      rw [findall, if_pos hp, ihr]
      simp [headMatches, hd, consRun]

theorem findall_eq_nil_iff (p : Nat → Bool) (cs : List Nat) :
    findall p cs = [] ↔ ∀ c ∈ cs, p c = false := by
  induction cs with
  | nil => simp [findall]
  | cons c cs ih =>
    by_cases hp : p c
    · rw [findall, if_pos hp]
      constructor
      · intro h
        exact absurd h (consRun_ne_nil _ _ _)
      · intro h
        exact absurd (h c (List.mem_cons_self _ _)) (by simp [hp])
    · rw [findall, if_neg hp, ih]
      constructor
      · intro h x hx
        rcases List.mem_cons.mp hx with h1 | h1
        · subst h1; simp [hp]
        · exact h x h1
      · intro h x hx
        exact h x (List.mem_cons_of_mem _ hx)

theorem asciiLower_idem (n : Nat) : asciiLower (asciiLower n) = asciiLower n := by
  unfold asciiLower
  by_cases h : 65 ≤ n ∧ n ≤ 90
  · rw [if_pos h, if_neg (by omega)]
  · rw [if_neg h, if_neg h]

/-! ## Shuffle / key-set lemmas -/

theorem sortWords_perm (ws : List Word) : (sortWords ws).Perm ws :=
  List.perm_insertionSort _ ws

theorem mem_uniqueSortedKeys (parts : List (List Line)) (w : Word) :
    w ∈ uniqueSortedKeys parts ↔ ∃ p ∈ parts, w ∈ tokensOfLines p := by
  unfold uniqueSortedKeys
  rw [(sortWords_perm _).mem_iff]
  simp only [List.mem_dedup, List.mem_flatten, List.mem_map]
  constructor
  · rintro ⟨l, ⟨p, hp, rfl⟩, hw⟩
    exact ⟨p, hp, List.mem_dedup.mp hw⟩
  · rintro ⟨p, hp, hw⟩
    exact ⟨(tokensOfLines p).dedup, ⟨p, hp, rfl⟩, List.mem_dedup.mpr hw⟩

theorem nodup_uniqueSortedKeys (parts : List (List Line)) :
    (uniqueSortedKeys parts).Nodup :=
  ((sortWords_perm _).nodup_iff).mpr (List.nodup_dedup _)

theorem count_nodup_mem {α : Type} [BEq α] [LawfulBEq α] (l : List α) (a : α) :
    l.Nodup → a ∈ l → l.count a = 1 := by
  induction l with
  | nil => intro _ ha; simp at ha
  | cons x xs ih =>
    intro hn ha
    rcases List.mem_cons.mp ha with rfl | h
    · rw [List.count_cons_self, List.count_eq_zero.mpr (List.nodup_cons.mp hn).1]
    · have hx : a ≠ x := by rintro rfl; exact (List.nodup_cons.mp hn).1 h
      rw [List.count_cons_of_ne hx, ih (List.nodup_cons.mp hn).2 h]

theorem count_uniqueSortedKeys (parts : List (List Line)) (w : Word) :
    (uniqueSortedKeys parts).count w
      = if w ∈ uniqueSortedKeys parts then 1 else 0 := by
  by_cases h : w ∈ uniqueSortedKeys parts
  · rw [if_pos h]
    exact count_nodup_mem _ _ (nodup_uniqueSortedKeys parts) h
  · rw [if_neg h]
    exact List.count_eq_zero.mpr h

/-! ## Pipeline evaluation -/

theorem multiNat_apply (lines : List Line) (n : Nat) (h : 1 ≤ n) (w : Word) :
    multiNat lines n w = (tokensOfLines lines).count w := by
  have hL := partitionSlices_flatten lines n h
  have hK := partitionSlices_flatten (uniqueSortedKeys (partitionSlices lines n)) n h
  unfold multiNat
  rw [combiner_task_eq, List.map_map]
  have hfun : ((fun m : CountMap => m w) ∘
        fun ks => reduce_task ks ((partitionSlices lines n).map map_task))
      = fun ks => ks.count w *
          ((((partitionSlices lines n).map map_task).map (fun m => m w)).sum) := by
    funext ks
    exact reduce_task_eq ks _ w
  rw [hfun, List.sum_map_mul_right]
  have heta : (fun ks : List Word => List.count w ks) = List.count w := rfl
  have hkey : ((partitionSlices (uniqueSortedKeys (partitionSlices lines n)) n).map
        (fun ks => List.count w ks)).sum
      = List.count w (uniqueSortedKeys (partitionSlices lines n)) := by
    rw [heta, ← List.count_flatten, hK]
  have hS : (((partitionSlices lines n).map map_task).map (fun m => m w)).sum
      = List.count w (tokensOfLines lines) := by
    rw [List.map_map]
    have hcomp : ((fun m : CountMap => m w) ∘ map_task)
        = fun p => (tokensOfLines p).count w := by
      funext p
      exact countWords_eq p w
    rw [hcomp, sum_count_parts, hL]
  rw [hkey, hS, count_uniqueSortedKeys]
  by_cases hw : w ∈ uniqueSortedKeys (partitionSlices lines n)
  · rw [if_pos hw, Nat.one_mul]
  · rw [if_neg hw, Nat.zero_mul]
    have hnotin : w ∉ tokensOfLines lines := by
      intro hmem
      apply hw
      rw [mem_uniqueSortedKeys]
      have hmem2 : w ∈ tokensOfLines (partitionSlices lines n).flatten := by
        rw [hL]; exact hmem
      rw [tokensOfLines_flatten, List.mem_flatten] at hmem2
      obtain ⟨l, hl, hwl⟩ := hmem2
      obtain ⟨p, hp, rfl⟩ := List.mem_map.mp hl
      exact ⟨p, hp, hwl⟩
    exact (List.count_eq_zero.mpr hnotin).symm

/-! ## Bridging the Python `int` entry point to the Nat-level pipeline -/

theorem pyIndex_natCast (len a : Nat) : pyIndex len (a : Int) = min a len := by
  unfold pyIndex
  rw [if_neg (by omega), Int.toNat_natCast]

theorem take_min {α : Type} (xs : List α) (b : Nat) :
    xs.take (min b xs.length) = xs.take b := by
  rcases le_total b xs.length with h | h
  · rw [min_eq_left h]
  · rw [min_eq_right h, List.take_length, List.take_of_length_le h]

theorem pySlice_natCast {α : Type} (a b : Nat) (xs : List α) :
    pySlice xs (a : Int) (b : Int) = (xs.drop a).take (b - a) := by
  unfold pySlice
  rw [pyIndex_natCast, pyIndex_natCast, take_min]
  rcases le_total a xs.length with h | h
  · rw [min_eq_left h, List.drop_take]
  · rw [min_eq_right h]
    have h1 : (xs.take b).length ≤ xs.length := by
      rw [List.length_take]; omega
    rw [List.drop_eq_nil_of_le h1, List.drop_eq_nil_of_le h, List.take_nil]

theorem pyChunksInt_natCast (n : Nat) (h : 1 ≤ n) {α : Type} (xs : List α) :
    pyChunksInt xs (n : Int) = partitionSlices xs n := by
  unfold pyChunksInt partitionSlices
  rw [Int.toNat_natCast]
  apply List.map_congr_left
  intro i hi
  rw [List.mem_range] at hi
  have hfdiv : Int.fdiv (xs.length : Int) (n : Int) = ((xs.length / n : Nat) : Int) := by
    rw [Int.fdiv_eq_ediv _ (by omega), Int.natCast_div]
  rw [hfdiv]
  by_cases hc : i < n - 1
  · have hcI : (i : Int) < (n : Int) - 1 := by omega
    rw [if_pos hcI, if_pos hc]
    have e1 : (i : Int) * ((xs.length / n : Nat) : Int) = ((i * (xs.length / n) : Nat) : Int) := by
      push_cast; ring
    have e2 : ((i : Int) + 1) * ((xs.length / n : Nat) : Int)
        = (((i + 1) * (xs.length / n) : Nat) : Int) := by
      push_cast; ring
    have e3 : (i + 1) * (xs.length / n) - i * (xs.length / n) = xs.length / n := by
      have hsm : (i + 1) * (xs.length / n) = i * (xs.length / n) + xs.length / n :=
        Nat.succ_mul i (xs.length / n)
      rw [hsm]
      exact Nat.add_sub_cancel_left _ _
    rw [e1, e2, pySlice_natCast, e3]
  · have hcI : ¬ (i : Int) < (n : Int) - 1 := by omega
    rw [if_neg hcI, if_neg hc]
    have e1 : (i : Int) * ((xs.length / n : Nat) : Int) = ((i * (xs.length / n) : Nat) : Int) := by
      push_cast; ring
    rw [e1, pySlice_natCast]
    apply List.take_of_length_le
    rw [List.length_drop]

theorem pyChunksInt_neg (t : Int) (h : t ≤ -1) {α : Type} (xs : List α) :
    pyChunksInt xs t = [] := by
  unfold pyChunksInt
  rw [Int.toNat_eq_zero.mpr (by omega)]
  rfl

theorem multi_natCast (lines : List Line) (n : Nat) (h : 1 ≤ n) :
    multi_threaded_wordcount lines (n : Int) = Except.ok (multiNat lines n) := by
  unfold multi_threaded_wordcount multiNat
  rw [if_neg (by omega)]
  simp only [pyChunksInt_natCast n h]

theorem multi_neg (lines : List Line) (t : Int) (h : t ≤ -1) :
    multi_threaded_wordcount lines t = Except.ok emptyCounts := by
  unfold multi_threaded_wordcount
  rw [if_neg (by omega)]
  simp only [pyChunksInt_neg t h]
  rfl

/-! ## wordcount_mt lemmas -/

theorem mem_joinWith (sep : List Nat) (ls : List (List Nat)) (c : Nat)
    (h : c ∈ joinWith sep ls) : c ∈ sep ∨ ∃ l ∈ ls, c ∈ l := by
  induction ls with
  | nil => simp [joinWith] at h
  | cons l ls ih =>
    cases ls with
    | nil =>
      right
      exact ⟨l, by simp, by simpa [joinWith] using h⟩
    | cons l2 ls2 =>
      simp only [joinWith] at h
      rcases List.mem_append.mp h with h1 | h1
      · rcases List.mem_append.mp h1 with h2 | h2
        · right; exact ⟨l, by simp, h2⟩
        · left; exact h2
      · rcases ih h1 with h2 | ⟨l3, hl3, hc3⟩
        · left; exact h2
        · right; exact ⟨l3, List.mem_cons_of_mem _ hl3, hc3⟩

theorem mem_joinWith_of_mem (sep : List Nat) (ls : List (List Nat)) (l : List Nat)
    (c : Nat) (hl : l ∈ ls) (hc : c ∈ l) : c ∈ joinWith sep ls := by
  induction ls with
  | nil => simp at hl
  | cons x ls ih =>
    cases ls with
    | nil =>
      have hx : l = x := by simpa using hl
      subst hx
      simpa [joinWith] using hc
    | cons y ls2 =>
      simp only [joinWith]
      rcases List.mem_cons.mp hl with rfl | h2
      · exact List.mem_append.mpr (Or.inl (List.mem_append.mpr (Or.inl hc)))
      · exact List.mem_append.mpr (Or.inr (ih h2))

theorem mtChunks_line_mem (lines : List Line) (n : Nat) (ch : List Line)
    (hch : ch ∈ mtChunks lines n) (l : Line) (hl : l ∈ ch) : l ∈ lines := by
  unfold mtChunks at hch
  obtain ⟨i, _, rfl⟩ := List.mem_map.mp hch
  exact List.Sublist.mem hl ((List.take_sublist _ _).trans (List.drop_sublist _ _))

theorem mtTokens_chunk_nil (lines : List Line) (n : Nat)
    (h : mtTokens lines = []) (ch : List Line) (hch : ch ∈ mtChunks lines n) :
    mtTokens ch = [] := by
  unfold mtTokens at h ⊢
  rw [findall_eq_nil_iff] at h ⊢
  intro c hc
  obtain ⟨c0, hc0, rfl⟩ := List.mem_map.mp hc
  rcases mem_joinWith _ _ _ hc0 with hsep | ⟨l, hl, hcl⟩
  · have h10 : c0 = 10 := by simpa using hsep
    subst h10
    decide
  · exact h (asciiLower c0)
      (List.mem_map_of_mem _
        (mem_joinWith_of_mem _ _ _ _ (mtChunks_line_mem lines n ch hch l hl) hcl))

theorem multithreaded_count_zero (lines : List Line) (n : Nat)
    (h : mtTokens lines = []) : multithreaded_count lines n = emptyCounts := by
  unfold multithreaded_count
  funext w
  have hflat : ((mtChunks lines n).map (fun ch => (mtTokens ch).dedup)).flatten = [] := by
    rw [List.flatten_eq_nil_iff]
    intro l hl
    obtain ⟨ch, hch, rfl⟩ := List.mem_map.mp hl
    rw [mtTokens_chunk_nil lines n h ch hch]
    rfl
  simp only [hflat]
  simp [emptyCounts]

/-! ## Tokenizer idempotence -/

theorem map_asciiLower_fixed (text : List Nat) (t : List Nat)
    (hsub : ∀ c ∈ t, c ∈ text.map asciiLower) : t.map asciiLower = t := by
  have hfix : ∀ c ∈ t, asciiLower c = c := by
    intro c hc
    obtain ⟨c0, _, rfl⟩ := List.mem_map.mp (hsub c hc)
    exact asciiLower_idem c0
  calc t.map asciiLower = t.map id := List.map_congr_left hfix
    _ = t := List.map_id t

theorem findall_lower_idem (p : Nat → Bool) (text : List Nat) (t : List Nat)
    (ht : t ∈ findall p (text.map asciiLower)) :
    findall p (t.map asciiLower) = [t] := by
  obtain ⟨hne, hall, hmem⟩ := findall_mem_spec p (text.map asciiLower) t ht
  rw [map_asciiLower_fixed text t hmem]
  exact findall_of_all p t hne hall

/-! ## Sum of counts over the distinct words -/

theorem sum_count_cons (x : Word) (xs : List Word) (D : List Word) :
    (D.map (fun w => (x :: xs).count w)).sum
      = (D.map (fun w => xs.count w)).sum + D.count x := by
  induction D with
  | nil => simp
  | cons y D ih =>
    simp only [List.map_cons, List.sum_cons, ih]
    rw [List.count_cons, List.count_cons]
    by_cases h : x = y
    · subst h
      simp
      omega
    · have h2 : ¬ (y = x) := fun hh => h hh.symm
      simp [h, h2]
      omega

theorem sum_count_dedup (l : List Word) :
    (l.dedup.map (fun w => l.count w)).sum = l.length := by
  induction l with
  | nil => simp
  | cons x xs ih =>
    have base : ((x :: xs).dedup.map (fun w => (x :: xs).count w)).sum
        = ((x :: xs).dedup.map (fun w => xs.count w)).sum + (x :: xs).dedup.count x :=
      sum_count_cons x xs _
    by_cases hmem : x ∈ xs
    · rw [List.dedup_cons_of_mem hmem] at base
      rw [List.dedup_cons_of_mem hmem, base, ih,
        count_nodup_mem _ _ (List.nodup_dedup xs) (List.mem_dedup.mpr hmem)]
      simp
    · rw [List.dedup_cons_of_not_mem hmem] at base
      rw [List.dedup_cons_of_not_mem hmem, base]
      have hc1 : (x :: xs.dedup).count x = 1 := by
        rw [List.count_cons_self,
          List.count_eq_zero.mpr (fun hx => hmem (List.mem_dedup.mp hx))]
      have hc2 : ((x :: xs.dedup).map (fun w => xs.count w)).sum = xs.length := by
        simp only [List.map_cons, List.sum_cons]
        rw [List.count_eq_zero.mpr hmem, ih]
        simp
      rw [hc1, hc2]
      simp

/-- Chunk `i` of the `wordcount_mt.py` Map partitioner. -/
theorem mtChunks_getD (lines : List Line) (n i : Nat) (hi : i < n) :
    (mtChunks lines n).getD i []
      = (lines.drop (i * ((lines.length + n - 1) / n))).take ((lines.length + n - 1) / n) := by
  unfold mtChunks
  rw [List.getD_eq_getElem?_getD, List.getElem?_map, List.getElem?_range hi]
  rfl

/-! ## Equivalence for the `wordcount_mt.py` pipeline -/

theorem findall_append_sep (p : Nat → Bool) (c : Nat) (hc : p c = false)
    (xs ys : List Nat) : findall p (xs ++ c :: ys) = findall p xs ++ findall p ys := by
  induction xs with
  | nil =>
    simp only [List.nil_append, findall]
    rw [if_neg (by simp [hc])]
  | cons x xs ih =>
    simp only [List.cons_append]
    by_cases hx : p x
    · rw [findall, if_pos hx, ih, findall, if_pos hx]
      cases xs with
      | nil =>
        simp only [List.nil_append, headMatches, hc]
        simp [consRun]
      | cons d ds =>
        simp only [List.cons_append, headMatches]
        by_cases hd : p d
        · obtain ⟨r, rs, hr⟩ : ∃ r rs, findall p (d :: ds) = r :: rs := by
            cases hfd : findall p (d :: ds) with
            | nil =>
              rw [findall, if_pos hd] at hfd
              exact absurd hfd (consRun_ne_nil _ _ _)
            | cons r rs => exact ⟨r, rs, rfl⟩
          rw [hr]
          simp [consRun, hd]
        · simp [consRun, hd]
    · rw [findall, if_neg hx, ih, findall, if_neg hx]

theorem joinWith_append (sep : List Nat) (ys : List (List Nat)) (hy : ys ≠ []) :
    ∀ xs : List (List Nat), xs ≠ [] →
      joinWith sep (xs ++ ys) = joinWith sep xs ++ sep ++ joinWith sep ys := by
  intro xs
  induction xs with
  | nil => intro hx; exact absurd rfl hx
  | cons x xs ih =>
    intro _
    cases xs with
    | nil =>
      cases ys with
      | nil => exact absurd rfl hy
      | cons y ys2 => simp [joinWith]
    | cons x2 xs2 =>
      have ih2 := ih (by simp)
      simp only [List.cons_append] at ih2 ⊢
      rw [joinWith.eq_3 sep x (x2 :: (xs2 ++ ys)) (by simp),
        joinWith.eq_3 sep x (x2 :: xs2) (by simp), ih2]
      simp [List.append_assoc]

theorem mtTokens_append (xs ys : List Line) :
    mtTokens (xs ++ ys) = mtTokens xs ++ mtTokens ys := by
  cases xs with
  | nil => rfl
  | cons x xs =>
    cases ys with
    | nil =>
      rw [List.append_nil, show mtTokens [] = ([] : List Word) from rfl, List.append_nil]
    | cons y ys =>
      unfold mtTokens
      rw [joinWith_append [10] (y :: ys) (by simp) (x :: xs) (by simp)]
      rw [List.map_append, List.map_append,
        show List.map asciiLower [10] = [10] from rfl]
      rw [List.append_assoc, List.singleton_append,
        findall_append_sep isWordChar 10 (by decide)]

theorem mtTokens_flatten (parts : List (List Line)) :
    mtTokens parts.flatten = (parts.map mtTokens).flatten := by
  induction parts with
  | nil => rfl
  | cons p ps ih => simp [mtTokens_append, ih]

theorem mt_sum_count_parts (parts : List (List Line)) (w : Word) :
    (parts.map (fun p => (mtTokens p).count w)).sum
      = (mtTokens parts.flatten).count w := by
  induction parts with
  | nil => rfl
  | cons p ps ih => simp [mtTokens_append, List.count_append, ih]

theorem ceil_mul_ge (len n : Nat) (h : 1 ≤ n) : len ≤ n * ((len + n - 1) / n) := by
  by_contra hlt
  push_neg at hlt
  have hlen : 0 < len := Nat.lt_of_le_of_lt (Nat.zero_le _) hlt
  have h1 : n * ((len + n - 1) / n) ≤ len - 1 := Nat.le_pred_of_lt hlt
  have h2 : ((len + n - 1) / n + 1) * n ≤ len + n - 1 := by
    calc ((len + n - 1) / n + 1) * n
        = n * ((len + n - 1) / n) + n := by
          rw [Nat.succ_mul, Nat.mul_comm ((len + n - 1) / n) n]
      _ ≤ (len - 1) + n := Nat.add_le_add_right h1 n
      _ ≤ len + n - 1 := by omega
  have h3 : (len + n - 1) / n + 1 ≤ (len + n - 1) / n :=
    (Nat.le_div_iff_mul_le (by omega)).mpr h2
  omega

theorem mtChunks_flatten (lines : List Line) (n : Nat) (h : 1 ≤ n) :
    (mtChunks lines n).flatten = lines := by
  unfold mtChunks
  rw [flatten_rangeTake]
  exact List.take_of_length_le (ceil_mul_ge lines.length n h)

theorem mtChunks_getD_length (lines : List Line) (n i : Nat) (hi : i < n) :
    ((mtChunks lines n).getD i []).length
      = min ((lines.length + n - 1) / n)
          (lines.length - i * ((lines.length + n - 1) / n)) := by
  rw [mtChunks_getD lines n i hi, List.length_take, List.length_drop]

theorem multithreaded_count_eq (lines : List Line) (n : Nat) (h : 1 ≤ n) (w : Word) :
    multithreaded_count lines n w = single_thread_count lines w := by
  simp only [multithreaded_count, single_thread_count]
  have hsum : ((List.map (fun ch => fun w2 => (mtTokens ch).count w2)
        (mtChunks lines n)).map (fun m => m w)).sum
      = (mtTokens lines).count w := by
    have h1 : ((List.map (fun ch => fun w2 => (mtTokens ch).count w2)
          (mtChunks lines n)).map (fun m => m w))
        = List.map (fun ch => (mtTokens ch).count w) (mtChunks lines n) := by
      rw [List.map_map]
      rfl
    rw [h1, mt_sum_count_parts, mtChunks_flatten lines n h]
  have hmem : (w ∈ ((mtChunks lines n).map (fun ch => (mtTokens ch).dedup)).flatten.dedup)
      ↔ w ∈ mtTokens lines := by
    rw [List.mem_dedup, List.mem_flatten]
    constructor
    · rintro ⟨l, hl, hwl⟩
      obtain ⟨ch, hch, rfl⟩ := List.mem_map.mp hl
      rw [List.mem_dedup] at hwl
      have hw2 : w ∈ mtTokens (mtChunks lines n).flatten := by
        rw [mtTokens_flatten, List.mem_flatten]
        exact ⟨mtTokens ch, List.mem_map_of_mem _ hch, hwl⟩
      rwa [mtChunks_flatten lines n h] at hw2
    · intro hw
      have hw2 : w ∈ mtTokens (mtChunks lines n).flatten := by
        rwa [mtChunks_flatten lines n h]
      rw [mtTokens_flatten, List.mem_flatten] at hw2
      obtain ⟨l, hl, hwl⟩ := hw2
      obtain ⟨ch, hch, rfl⟩ := List.mem_map.mp hl
      exact ⟨(mtTokens ch).dedup, List.mem_map_of_mem _ hch, List.mem_dedup.mpr hwl⟩
  by_cases hw : w ∈ mtTokens lines
  · rw [if_pos (hmem.mpr hw)]
    exact hsum
  · rw [if_neg (fun hk => hw (hmem.mp hk))]
    exact (List.count_eq_zero.mpr hw).symm

/-! ## Demo inputs (the spec's scenario lines) -/

/-- First scenario line, `"The quick fox"`. -/
def demoLineA : Line := codes ['T','h','e',' ','q','u','i','c','k',' ','f','o','x']

/-- Second scenario line, `"the QUICK brown fox"`. -/
def demoLineB : Line :=
  codes ['t','h','e',' ','Q','U','I','C','K',' ','b','r','o','w','n',' ','f','o','x']

/-- The spec's scenario input. -/
def demoLines : List Line := [demoLineA, demoLineB]

/-! ## Claims -/

/-- C1: for every input line sequence and every thread count `t ≥ 1` (in
particular all of {1, 2, 3, 7, 100}), the mapping returned by the concurrent
pipeline equals the mapping of the sequential baseline on the same lines. -/
theorem claim_c1_multi_eq_single (lines : List Line) (t : Int) (h : 1 ≤ t) :
    multi_threaded_wordcount lines t = Except.ok (single_threaded_wordcount lines) := by
  obtain ⟨n, hn, rfl⟩ : ∃ n : Nat, 1 ≤ n ∧ t = (n : Int) :=
    ⟨t.toNat, by omega, (Int.toNat_of_nonneg (by omega)).symm⟩
  rw [multi_natCast lines n hn]
  congr 1
  funext w
  rw [multiNat_apply lines n hn w]
  exact (countWords_eq lines w).symm

/-- C1 witness: the scenario input with two threads. -/
theorem claim_c1_witness :
    multi_threaded_wordcount demoLines 2 = Except.ok (single_threaded_wordcount demoLines) :=
  claim_c1_multi_eq_single demoLines 2 (by decide)

/-- C2 counterexample: `multi_threaded_wordcount` does not reject an invalid
thread count: at `num_threads = -1` on a nonempty input it silently returns
an (empty) result mapping instead of a constraint-violation error. -/
theorem claim_c2_counterexample :
    multi_threaded_wordcount [codes ['a']] (-1) = Except.ok emptyCounts := rfl

/-- C2 (amended): the `num_threads < 1` constraint is enforced by the HTTP
adapter `wordcount_api`, which rejects before invoking the pipeline;
`multi_threaded_wordcount` itself does no validation: at `0` it dies with
`ZeroDivisionError` at the partition-size computation, and at any `t ≤ -1`
it returns an empty mapping with no error. -/
theorem claim_c2_amended (content : List Line) (t : Int) (h : t < 1) :
    wordcount_api content t = Except.error "Invalid thread count"
    ∧ (t = 0 → multi_threaded_wordcount content t = Except.error "ZeroDivisionError")
    ∧ (t ≤ -1 → multi_threaded_wordcount content t = Except.ok emptyCounts) := by
  refine ⟨?_, ?_, ?_⟩
  · unfold wordcount_api
    rw [if_pos h]
  · intro h0
    subst h0
    rfl
  · intro hneg
    exact multi_neg content t hneg

/-- C2 witness: thread count 0 is rejected by the adapter and would crash the
pipeline. -/
theorem claim_c2_amended_witness :
    wordcount_api [codes ['a']] 0 = Except.error "Invalid thread count"
    ∧ multi_threaded_wordcount [codes ['a']] 0 = Except.error "ZeroDivisionError" := by
  have h := claim_c2_amended [codes ['a']] 0 (by decide)
  exact ⟨h.1, h.2.1 rfl⟩

/-- C3 counterexample: with 1 line and 2 chunks, the `wordcount_mr.py`
partitioner makes the LEADING chunk empty and puts all lines in the trailing
chunk, contradicting "the trailing chunks (those beyond the line count) are
the empty ones". -/
theorem claim_c3_counterexample :
    partitionSlices [codes ['a']] 2 = [[], [codes ['a']]]
    ∧ (partitionSlices [codes ['a']] 2).getD 1 [] ≠ [] := by
  constructor
  · decide
  · decide

/-- C3 (amended): when `n > len(lines)` the `wordcount_mr.py` partitioner
still produces exactly `n` chunks, none omitted, but the empty chunks are the
first `n - 1` and the last chunk holds the whole input (chunk size
`len // n = 0`); the `wordcount_mt.py` partitioner (ceiling chunk size) does
leave the trailing chunks empty.  In both pipelines nothing errors and the
excess empty chunks and key groups contribute nothing: in each variant the
concurrent mapping equals that variant's sequential counter. -/
theorem claim_c3_amended (lines : List Line) (n : Nat) (h : lines.length < n) :
    (partitionSlices lines n).length = n
    ∧ (∀ i, i < n - 1 → (partitionSlices lines n).getD i [] = [])
    ∧ (partitionSlices lines n).getD (n - 1) [] = lines
    ∧ multi_threaded_wordcount lines (n : Int) = Except.ok (multiNat lines n)
    ∧ (∀ w, multiNat lines n w = single_threaded_wordcount lines w)
    ∧ (mtChunks lines n).length = n
    ∧ (∀ i, lines.length ≤ i → i < n → (mtChunks lines n).getD i [] = [])
    ∧ (∀ w, multithreaded_count lines n w = single_thread_count lines w) := by
  have hn : 1 ≤ n := by omega
  have hsize : lines.length / n = 0 := Nat.div_eq_of_lt h
  refine ⟨partitionSlices_length lines n, ?_, ?_, multi_natCast lines n hn, ?_, ?_, ?_,
    fun w => multithreaded_count_eq lines n hn w⟩
  · intro i hi
    rw [partitionSlices_getD lines n i (by omega), if_pos hi, hsize]
    simp
  · rw [partitionSlices_getD lines n (n - 1) (by omega), if_neg (by omega), hsize]
    simp
  · intro w
    rw [multiNat_apply lines n hn w]
    exact (countWords_eq lines w).symm
  · simp [mtChunks]
  · intro i hlen hi
    rw [mtChunks_getD lines n i hi]
    have hcs : lines.length ≤ i * ((lines.length + n - 1) / n) := by
      rcases Nat.eq_zero_or_pos lines.length with h0 | h0
      · omega
      · have h1 : 1 ≤ (lines.length + n - 1) / n := by
          rw [Nat.one_le_div_iff (by omega)]
          omega
        calc lines.length ≤ i := hlen
          _ = i * 1 := (Nat.mul_one i).symm
          _ ≤ i * ((lines.length + n - 1) / n) := Nat.mul_le_mul_left i h1
    rw [List.drop_eq_nil_of_le hcs, List.take_nil]

/-- C3 witness: 1 line, 3 threads. -/
theorem claim_c3_amended_witness :
    (partitionSlices [codes ['a']] 3).length = 3
    ∧ (partitionSlices [codes ['a']] 3).getD 0 [] = []
    ∧ (partitionSlices [codes ['a']] 3).getD 2 [] = [codes ['a']]
    ∧ multiNat [codes ['a']] 3 (codes ['a']) = single_threaded_wordcount [codes ['a']] (codes ['a'])
    ∧ (mtChunks [codes ['a']] 3).getD 2 [] = []
    ∧ multithreaded_count [codes ['a']] 3 (codes ['a'])
        = single_thread_count [codes ['a']] (codes ['a']) := by
  obtain ⟨h1, h2, h3, _, h5, _, h7, h8⟩ := claim_c3_amended [codes ['a']] 3 (by decide)
  exact ⟨h1, h2 0 (by decide), h3, h5 (codes ['a']), h7 2 (by decide) (by decide),
    h8 (codes ['a'])⟩

/-- C4 counterexample: the claim also covers the `wordcount_mt.py`
partitioner (lines 84-90), whose ceiling chunk size refutes "the remainder is
absorbed into the last chunk": 3 lines into 2 chunks gives sizes [2, 1] — the
last chunk has length 1, not `len // n + len % n = 2`. -/
theorem claim_c4_counterexample :
    (mtChunks [[97], [98], [99]] 2).map List.length = [2, 1]
    ∧ ((mtChunks [[97], [98], [99]] 2).getD 1 []).length
        ≠ ([[97], [98], [99]] : List Line).length / 2
          + ([[97], [98], [99]] : List Line).length % 2 := by
  constructor
  · decide
  · decide

/-- C4 (amended): for every sequence and every `n ≥ 1`, both partitioners
produce exactly `n` contiguous chunks whose concatenation reconstructs the
original sequence (hence pairwise disjoint index ranges, no overlap, no gap)
and whose lengths sum to the input length.  The remainder policy differs: in
`wordcount_mr.py` (floor chunk size `len // n`) the first `n - 1` chunks have
length `len // n` and the remainder is absorbed into the last chunk; in
`wordcount_mt.py` (ceiling chunk size `cs = (len + n - 1) // n`) the leading
chunks take `cs` elements each, so chunk `i` has length `min cs (len - i*cs)`
and the last chunk may be shorter than the others or empty. -/
theorem claim_c4_amended (α : Type) (xs : List α) (lines : List Line) (n : Nat)
    (h : 1 ≤ n) :
    ((partitionSlices xs n).length = n
      ∧ (partitionSlices xs n).flatten = xs
      ∧ ((partitionSlices xs n).map List.length).sum = xs.length
      ∧ (∀ i, i < n - 1 → ((partitionSlices xs n).getD i []).length = xs.length / n)
      ∧ ((partitionSlices xs n).getD (n - 1) []).length = xs.length / n + xs.length % n)
    ∧ ((mtChunks lines n).length = n
      ∧ (mtChunks lines n).flatten = lines
      ∧ ((mtChunks lines n).map List.length).sum = lines.length
      ∧ (∀ i, i < n →
          ((mtChunks lines n).getD i []).length
            = min ((lines.length + n - 1) / n)
                (lines.length - i * ((lines.length + n - 1) / n)))) := by
  constructor
  · refine ⟨partitionSlices_length xs n, partitionSlices_flatten xs n h, ?_,
      fun i hi => partitionSlices_getD_length xs n i hi, partitionSlices_getD_last xs n h⟩
    rw [← List.length_flatten, partitionSlices_flatten xs n h]
  · refine ⟨by simp [mtChunks], mtChunks_flatten lines n h, ?_,
      fun i hi => mtChunks_getD_length lines n i hi⟩
    rw [← List.length_flatten, mtChunks_flatten lines n h]

/-- C4 witness: 3 elements into 2 chunks: mr sizes [1, 2] (remainder in the
last chunk), mt sizes [2, 1] (short last chunk); both reconstruct the input. -/
theorem claim_c4_amended_witness :
    (partitionSlices ([10, 20, 30] : List Nat) 2).flatten = [10, 20, 30]
    ∧ ((partitionSlices ([10, 20, 30] : List Nat) 2).getD 0 []).length = 1
    ∧ ((partitionSlices ([10, 20, 30] : List Nat) 2).getD 1 []).length = 2
    ∧ (mtChunks [[97], [98], [99]] 2).flatten = [[97], [98], [99]]
    ∧ ((mtChunks [[97], [98], [99]] 2).getD 0 []).length = 2
    ∧ ((mtChunks [[97], [98], [99]] 2).getD 1 []).length = 1 := by
  obtain ⟨⟨_, h2, _, h4, h5⟩, ⟨_, m2, _, m4⟩⟩ :=
    claim_c4_amended Nat [10, 20, 30] [[97], [98], [99]] 2 (by decide)
  exact ⟨h2, h4 0 (by decide), h5, m2, m4 0 (by decide), m4 1 (by decide)⟩

/-- C5: for every input and every thread count `n ≥ 1`, the values of the
final count mapping (one per distinct word, the pipeline's key set) sum to
the total number of tokens the tokenizer extracts from the input; the
mapping's support is exactly that key set, and the `int` entry point returns
exactly this mapping. -/
theorem claim_c5_conservation (lines : List Line) (n : Nat) (h : 1 ≤ n) :
    ((uniqueSortedKeys (partitionSlices lines n)).map (multiNat lines n)).sum
        = (tokensOfLines lines).length
    ∧ (∀ w, multiNat lines n w ≠ 0 ↔ w ∈ uniqueSortedKeys (partitionSlices lines n))
    ∧ multi_threaded_wordcount lines (n : Int) = Except.ok (multiNat lines n) := by
  have hmem : ∀ w, w ∈ uniqueSortedKeys (partitionSlices lines n) ↔ w ∈ tokensOfLines lines := by
    intro w
    rw [mem_uniqueSortedKeys]
    constructor
    · rintro ⟨p, hp, hw⟩
      have hflat : w ∈ tokensOfLines (partitionSlices lines n).flatten := by
        rw [tokensOfLines_flatten, List.mem_flatten]
        exact ⟨tokensOfLines p, List.mem_map_of_mem _ hp, hw⟩
      rwa [partitionSlices_flatten lines n h] at hflat
    · intro hw
      have hw2 : w ∈ tokensOfLines (partitionSlices lines n).flatten := by
        rwa [partitionSlices_flatten lines n h]
      rw [tokensOfLines_flatten, List.mem_flatten] at hw2
      obtain ⟨l, hl, hwl⟩ := hw2
      obtain ⟨p, hp, rfl⟩ := List.mem_map.mp hl
      exact ⟨p, hp, hwl⟩
  refine ⟨?_, ?_, multi_natCast lines n h⟩
  · have hperm : (uniqueSortedKeys (partitionSlices lines n)).Perm (tokensOfLines lines).dedup := by
      apply List.perm_of_nodup_nodup_toFinset_eq (nodup_uniqueSortedKeys _) (List.nodup_dedup _)
      apply Finset.ext
      intro w
      rw [List.mem_toFinset, List.mem_toFinset, List.mem_dedup]
      exact hmem w
    calc ((uniqueSortedKeys (partitionSlices lines n)).map (multiNat lines n)).sum
        = ((uniqueSortedKeys (partitionSlices lines n)).map
            (fun w => (tokensOfLines lines).count w)).sum := by
          congr 1
          exact List.map_congr_left (fun w _ => multiNat_apply lines n h w)
      _ = (((tokensOfLines lines).dedup).map (fun w => (tokensOfLines lines).count w)).sum :=
          (hperm.map _).sum_eq
      _ = (tokensOfLines lines).length := sum_count_dedup (tokensOfLines lines)
  · intro w
    rw [multiNat_apply lines n h w, hmem w]
    constructor
    · intro hne
      exact List.count_pos_iff.mp (Nat.pos_of_ne_zero hne)
    · intro hmem2
      exact Nat.pos_iff_ne_zero.mp (List.count_pos_iff.mpr hmem2)

/-- C5 witness: the scenario input with two threads (7 tokens in total). -/
theorem claim_c5_witness :
    ((uniqueSortedKeys (partitionSlices demoLines 2)).map (multiNat demoLines 2)).sum
        = (tokensOfLines demoLines).length
    ∧ multi_threaded_wordcount demoLines 2 = Except.ok (multiNat demoLines 2) := by
  obtain ⟨h1, _, h3⟩ := claim_c5_conservation demoLines 2 (by decide)
  exact ⟨h1, h3⟩

/-- C6 counterexample: `CombinerThread.run` has no secondary sort key.  On the
reduced items of `{a:3, b:5, c:5, d:1}` taken in the dict order `c` before
`b`, the sorted output keeps `c` before `b` — not the claimed ascending
lexical tie-break. -/
theorem claim_c6_counterexample :
    combinerRun [(codes ['a'], 3), (codes ['c'], 5), (codes ['b'], 5), (codes ['d'], 1)]
      = [(codes ['c'], 5), (codes ['b'], 5), (codes ['a'], 3), (codes ['d'], 1)]
    ∧ combinerRun [(codes ['a'], 3), (codes ['c'], 5), (codes ['b'], 5), (codes ['d'], 1)]
      ≠ [(codes ['b'], 5), (codes ['c'], 5), (codes ['a'], 3), (codes ['d'], 1)] := by
  constructor
  · decide
  · decide

/-- C6 (amended): the Combine presentation sort orders the pairs by count
descending only: Python's `sorted` is stable and is given no secondary key,
so ties keep the iteration order of the reduced dict (its reduce-thread
completion order), not a fixed lexical rule.  On `{a:3, b:5, c:5, d:1}` the
two count-5 words come first in their dict order, then `a`, then `d`. -/
theorem claim_c6_amended :
    (∀ ps : List (Word × Nat),
      (combinerRun ps).Sorted (fun a b => b.2 ≤ a.2) ∧ (combinerRun ps).Perm ps)
    ∧ combinerRun [(codes ['a'], 3), (codes ['b'], 5), (codes ['c'], 5), (codes ['d'], 1)]
        = [(codes ['b'], 5), (codes ['c'], 5), (codes ['a'], 3), (codes ['d'], 1)]
    ∧ combinerRun [(codes ['a'], 3), (codes ['c'], 5), (codes ['b'], 5), (codes ['d'], 1)]
        = [(codes ['c'], 5), (codes ['b'], 5), (codes ['a'], 3), (codes ['d'], 1)] := by
  refine ⟨fun ps => ⟨?_, List.perm_insertionSort _ _⟩, by decide, by decide⟩
  haveI hT : IsTotal (Word × Nat) (fun a b => b.2 ≤ a.2) := ⟨fun a b => le_total b.2 a.2⟩
  haveI hTr : IsTrans (Word × Nat) (fun a b => b.2 ≤ a.2) :=
    ⟨fun _ _ _ hab hbc => le_trans hbc hab⟩
  exact List.sorted_insertionSort _ ps

/-- C7: the reduce summation and the combiner merge are independent of the
order in which per-task results are processed: permuting the list of partial
count maps (resp. reduced count maps) leaves `reduce_task` (resp.
`combiner_task`) unchanged. -/
theorem claim_c7_order_independence (keys : List Word)
    (inter inter2 red red2 : List CountMap)
    (h1 : inter.Perm inter2) (h2 : red.Perm red2) :
    reduce_task keys inter = reduce_task keys inter2
    ∧ combiner_task red = combiner_task red2 := by
  constructor
  · funext w
    rw [reduce_task_eq, reduce_task_eq, (h1.map (fun m => m w)).sum_eq]
  · funext w
    rw [combiner_task_eq, combiner_task_eq, (h2.map (fun m => m w)).sum_eq]

/-- One-entry count map used by the C7 witness. -/
def mapA : CountMap := bump emptyCounts (codes ['a'])

/-- C7 witness: swapping two partial maps changes neither result. -/
theorem claim_c7_witness :
    reduce_task [codes ['a']] [mapA, emptyCounts] = reduce_task [codes ['a']] [emptyCounts, mapA]
    ∧ combiner_task [mapA, emptyCounts] = combiner_task [emptyCounts, mapA] :=
  claim_c7_order_independence [codes ['a']] [mapA, emptyCounts] [emptyCounts, mapA]
    [mapA, emptyCounts] [emptyCounts, mapA]
    (List.Perm.swap emptyCounts mapA []) (List.Perm.swap emptyCounts mapA [])

/-- C8: an input with no tokens (in particular the empty line sequence) gives
an empty final mapping, with no error, on the sequential and the concurrent
path of both pipeline variants, for every thread count ≥ 1. -/
theorem claim_c8_empty_input (lines : List Line) (t : Int) (n : Nat)
    (ht : 1 ≤ t) (hn : 1 ≤ n) :
    (tokensOfLines lines = [] →
      single_threaded_wordcount lines = emptyCounts
      ∧ multi_threaded_wordcount lines t = Except.ok emptyCounts)
    ∧ (mtTokens lines = [] →
      single_thread_count lines = emptyCounts
      ∧ multithreaded_count lines n = emptyCounts) := by
  constructor
  · intro h0
    have hsingle : single_threaded_wordcount lines = emptyCounts := by
      funext w
      rw [show single_threaded_wordcount lines w = countWords lines w from rfl,
        countWords_eq, h0]
      rfl
    refine ⟨hsingle, ?_⟩
    obtain ⟨m, hm, rfl⟩ : ∃ m : Nat, 1 ≤ m ∧ t = (m : Int) :=
      ⟨t.toNat, by omega, (Int.toNat_of_nonneg (by omega)).symm⟩
    rw [multi_natCast lines m hm]
    congr 1
    funext w
    rw [multiNat_apply lines m hm w, h0]
    rfl
  · intro h0
    refine ⟨?_, multithreaded_count_zero lines n h0⟩
    funext w
    unfold single_thread_count
    rw [h0]
    rfl

/-- C8 witness: the empty line sequence with one thread. -/
theorem claim_c8_witness :
    single_threaded_wordcount [] = emptyCounts
    ∧ multi_threaded_wordcount [] 1 = Except.ok emptyCounts
    ∧ single_thread_count [] = emptyCounts
    ∧ multithreaded_count [] 1 = emptyCounts := by
  obtain ⟨h1, h2⟩ := claim_c8_empty_input [] 1 1 (by decide) (by decide)
  obtain ⟨h1a, h1b⟩ := h1 rfl
  obtain ⟨h2a, h2b⟩ := h2 rfl
  exact ⟨h1a, h1b, h2a, h2b⟩

/-- C9: tokenization is idempotent: every token either tokenizer extracts,
fed back through the same lowercase-and-extract tokenizer, comes back as
exactly that one token. -/
theorem claim_c9_idempotent (line : Line) (t : Word) :
    (t ∈ tokenize line → tokenize t = [t])
    ∧ (t ∈ mtTokens [line] → mtTokens [t] = [t]) := by
  constructor
  · intro ht
    exact findall_lower_idem isAlphaChar line t ht
  · intro ht
    exact findall_lower_idem isWordChar line t ht

/-- C9 witness: the token `hello` of `"Hello World"` re-tokenizes to itself. -/
theorem claim_c9_witness :
    tokenize (codes ['h','e','l','l','o']) = [codes ['h','e','l','l','o']]
    ∧ mtTokens [codes ['h','e','l','l','o']] = [codes ['h','e','l','l','o']] := by
  have h := claim_c9_idempotent
    (codes ['H','e','l','l','o',' ','W','o','r','l','d']) (codes ['h','e','l','l','o'])
  exact ⟨h.1 (by decide), h.2 (by decide)⟩

/-- C10: for every line sequence and every `num_threads ≤ -1`,
`multi_threaded_wordcount` returns an empty mapping and raises no error: the
comprehensions over `range(num_threads)` are empty, so all input is silently
dropped. -/
theorem claim_c10_negative_threads (lines : List Line) (t : Int) (h : t ≤ -1) :
    multi_threaded_wordcount lines t = Except.ok emptyCounts :=
  multi_neg lines t h

/-- C10 witness: two nonempty lines, thread count -2. -/
theorem claim_c10_witness :
    multi_threaded_wordcount [codes ['b'], codes ['c']] (-2) = Except.ok emptyCounts :=
  claim_c10_negative_threads [codes ['b'], codes ['c']] (-2) (by decide)
